import Mathlib

/-!
Verification development for the pulumi repository sample.

Part I embeds `pkg/workspace/templates.go` (project-name sanitisation,
template file copying, binary detection, byte writing).

Part II embeds the deployment planning/execution engine described by the
specification (resource model, snapshot store, step generator, step
executor).  The engine's own Go sources are not part of the sample
(only its integration test `tests/integration/protect_resources` is), so
those definitions are modelled from the specification; each such
definition says so in its doc comment.
-/

namespace Workspace

/-- Translation of the Go constant `defaultProjectName = "project"` from
`pkg/workspace/templates.go`.  Go strings are modelled as lists of
characters (all names involved are ASCII, where Go's byte indexing and
character indexing agree). -/
def defaultProjectName : List Char := "project".toList

/-- Modelled from the spec: the body of `tokens.IsPackageName` is not under
`src/`; `templates.go` only calls it.  It is modelled as the package-name
grammar used by the engine's token layer: a qualified name, i.e. one or
more `/`-separated segments, each matching `[A-Za-z_.][A-Za-z0-9_.]*`.
This predicate accepts the first character of a segment. -/
def isNameStart (c : Char) : Bool :=
  (('A' ≤ c && c ≤ 'Z') || ('a' ≤ c && c ≤ 'z')) || c = '_' || c = '.'

/-- Modelled from the spec: continuation characters of a name segment,
`[A-Za-z0-9_.]`. -/
def isNameCont (c : Char) : Bool :=
  isNameStart c || ('0' ≤ c && c ≤ '9')

/-- Modelled from the spec: a single name segment `[A-Za-z_.][A-Za-z0-9_.]*`
(nonempty, valid start character, valid continuation characters). -/
def isNameSeg (l : List Char) : Bool :=
  match l with
  | [] => false
  | c :: rest => isNameStart c && rest.all isNameCont

/-- Splits a character list at `/` separators (the qualified-name
delimiter), keeping empty segments, as `strings.Split` would. -/
def splitSlash : List Char → List (List Char)
  | [] => [[]]
  | c :: rest =>
    let r := splitSlash rest
    if c = '/' then [] :: r
    else
      match r with
      | [] => [[c]]
      | seg :: segs => (c :: seg) :: segs

/-- Modelled from the spec: `tokens.IsPackageName`, a qualified name made of
`/`-separated name segments. -/
def IsPackageName (name : List Char) : Bool :=
  (splitSlash name).all isNameSeg

/-- Translation of `IsValidProjectName` (templates.go, lines 224-227): it
returns `tokens.IsPackageName(name)`. -/
def IsValidProjectName (name : List Char) : Bool :=
  IsPackageName name

/-- Translation of the loop inside `getValidProjectName` (templates.go,
lines 256-263): walk the input character by character, appending a
character to the accumulated result whenever the extended string is still
a valid project name. -/
def buildValidName : List Char → List Char → List Char
  | [], result => result
  | c :: rest, result =>
    let temp := result ++ [c]
    if IsValidProjectName temp then buildValidName rest temp
    else buildValidName rest result

/-- Translation of `getValidProjectName` (templates.go, lines 250-271):
return the input unchanged when it is already valid; otherwise greedily
build up a valid name from the input's characters, falling back to
`defaultProjectName` when nothing valid could be built. -/
def getValidProjectName (name : List Char) : List Char :=
  if IsValidProjectName name then name
  else
    let result := buildValidName name []
    if result = [] then defaultProjectName else result

/-- File contents are modelled as lists of bytes (`Nat` values; the Go code
only ever compares bytes against zero and copies them). -/
abbrev FileBytes := List Nat

/-- Translation of `isBinary` (templates.go, lines 416-431): true when a
zero byte occurs within the first `min(len(bytes), 8000)` bytes.  The Go
loop over indices `0 ≤ i < length` testing `bytes[i] == 0` is rendered as
an existence test over the first `length` bytes. -/
def isBinary (bytes : FileBytes) : Bool :=
  let firstFewBytes := 8000
  let length := min bytes.length firstFewBytes
  (bytes.take length).any (fun b => b = 0)

/-- Tests whether the first list occurs (entirely) at the head of the
second list; helper for the `strings.Replace` model. -/
def leadsWith : List Nat → List Nat → Bool
  | [], _ => true
  | _ :: _, [] => false
  | p :: ps, c :: cs => p = c && leadsWith ps cs

/-- Model of Go's `strings.Replace(s, old, new, -1)` on byte lists:
replace every leftmost, non-overlapping occurrence of `pat` by `rep`.
The `pat = []` guard returns the input unchanged; `transform` only ever
uses the nonempty literals `${PROJECT}` and `${DESCRIPTION}`. -/
def replaceAll (pat rep : FileBytes) : FileBytes → FileBytes
  | [] => []
  | c :: rest =>
    if h : pat = [] then c :: rest
    else
      if leadsWith pat (c :: rest) then
        rep ++ replaceAll pat rep ((c :: rest).drop pat.length)
      else
        c :: replaceAll pat rep rest
  termination_by s => s.length
  decreasing_by
  · simp only [List.length_drop, List.length_cons]
    have hp : 0 < pat.length := List.length_pos.mpr h
    omega
  · simp

/-- Byte-list spelling of a literal ASCII string. -/
def asciiBytes (s : String) : FileBytes :=
  s.toList.map (fun c => c.toNat)

/-- Translation of `transform` (templates.go, lines 388-392): replace
`${PROJECT}` by the project name and `${DESCRIPTION}` by the project
description. -/
def transform (content : FileBytes) (projectName projectDescription : FileBytes) : FileBytes :=
  replaceAll (asciiBytes "${PROJECT}") projectName
    (replaceAll (asciiBytes "${DESCRIPTION}") projectDescription content)

/-- Translation of the per-file body of `CopyTemplateFiles` (templates.go,
lines 192-197): binary files are copied verbatim, text files go through
`transform`. -/
def copyTemplateFileContent (b : FileBytes) (projectName projectDescription : FileBytes) :
    FileBytes :=
  if isBinary b then b else transform b projectName projectDescription

/-- Error result of `writeAllBytes`; `alreadyExists` models the `os.IsExist`
error produced by `O_EXCL` when the destination file exists. -/
inductive WriteError where
  | alreadyExists
deriving DecidableEq

/-- The file system visible to `writeAllBytes`, modelled as an association
list from file names to contents. -/
structure FileSys where
  files : List (String × FileBytes)
deriving DecidableEq

/-- Reads a file's contents, if the file exists. -/
def FileSys.readFile (fs : FileSys) (filename : String) : Option FileBytes :=
  (fs.files.find? (fun e => e.1 = filename)).map (fun e => e.2)

/-- Installs `bytes` as the contents of `filename` (newest entry first, so
`readFile` sees the latest write). -/
def FileSys.setFile (fs : FileSys) (filename : String) (bytes : FileBytes) : FileSys :=
  ⟨(filename, bytes) :: fs.files⟩

/-- Translation of `writeAllBytes` (templates.go, lines 395-411): the file
is opened with `O_WRONLY|O_CREATE`, plus `O_TRUNC` when `overwrite` is
true (truncate and replace the contents) and `O_EXCL` otherwise (fail
with an already-exists error when the destination file exists).  The
result pairs the file system after the call with the error, if any; on
error the file system is returned unchanged. -/
def writeAllBytes (fs : FileSys) (filename : String) (bytes : FileBytes) (overwrite : Bool) :
    FileSys × Option WriteError :=
  if overwrite then (fs.setFile filename bytes, none)
  else
    match fs.readFile filename with
    | some _ => (fs, some WriteError.alreadyExists)
    | none => (fs.setFile filename bytes, none)

end Workspace

namespace Engine

/-- Modelled from the spec: the engine's resource/URN model (§3, §4.1) is
not under `src/`.  A URN is the stable logical identifier of a resource;
the claims inspect its type token and logical name, so only those two
components are modelled. -/
structure URN where
  typ : String
  name : String
deriving DecidableEq

/-- Modelled from the spec: the type token of the implicit root stack
pseudo-resource (the integration test checks it via
`resource.RootStackType`). -/
def RootStackType : String := "pulumi:pulumi:Stack"

/-- Modelled from the spec §3: a resource state, restricted to the fields
the claims inspect — URN, input properties, the Protect flag and the
dependency set. -/
structure ResourceState where
  urn : URN
  inputs : List (String × String)
  protect : Bool
  dependencies : List URN
deriving DecidableEq

/-- Modelled from the spec §3: a snapshot is an ordered sequence of
resource states, the implicit root pseudo-resource first. -/
abbrev Snapshot := List ResourceState

/-- Modelled from the spec §6: a resource-registration record of the
desired-state source, delivered in program registration order. -/
structure Registration where
  urn : URN
  inputs : List (String × String)
  protect : Bool
  dependencies : List URN
deriving DecidableEq

/-- Modelled from the spec §3: the step kinds. -/
inductive StepKind where
  | same
  | create
  | update
  | delete
  | replace
  | createReplacement
  | deleteReplaced
deriving DecidableEq

/-- Modelled from the spec §3/§4.3: a step records its kind, its resource's
URN, the post-state to record in the new snapshot (`none` for deletes)
and the URNs whose steps must complete before it — the predecessor
constraints of the combined dependency graph handed to the executor. -/
structure Step where
  kind : StepKind
  urn : URN
  state : Option ResourceState
  deps : List URN
deriving DecidableEq

/-- Modelled from the spec §7: the planning error the claims exercise — a
Delete (or Replace) planned against a resource with `Protect=true`. -/
inductive PlanError where
  | protectedResource : URN → PlanError
deriving DecidableEq

/-- The snapshot entry that a registration materialises as. -/
def mkState (r : Registration) : ResourceState :=
  ⟨r.urn, r.inputs, r.protect, r.dependencies⟩

/-- Modelled from the spec §4.3 step 1: URN-keyed lookup of old-state
resources. -/
def lookupOld (old : Snapshot) (u : URN) : Option ResourceState :=
  old.find? (fun s => s.urn = u)

/-- Modelled from the spec §4.3 step 2: a desired resource missing from the
old state is a Create; one whose recorded state is unchanged is a Same
(carrying the old state forward unchanged); otherwise it is an Update
(the protected-resource scenario shows a Protect-flag change surfacing as
an Update step).  The provider diff of §6 is modelled as this equality
test, so no Replace is ever produced. -/
def genStep (old : Snapshot) (r : Registration) : Step :=
  match lookupOld old r.urn with
  | none => ⟨.create, r.urn, some (mkState r), r.dependencies⟩
  | some os =>
    if os = mkState r then ⟨.same, r.urn, some os, r.dependencies⟩
    else ⟨.update, r.urn, some (mkState r), r.dependencies⟩

/-- Modelled from the spec §4.3 step 3: the resources of `full` that
declare `u` in their dependency set; their steps must run before `u`'s
Delete. -/
def dependentsOf (full : Snapshot) (u : URN) : List URN :=
  (full.filter (fun s => u ∈ s.dependencies)).map (fun s => s.urn)

/-- Modelled from the spec §4.3 step 3: walk the old snapshot; an old
resource absent from the desired URNs becomes a Delete, refused with a
ProtectedResourceError when its recorded `Protect` flag is set. -/
def genDeletesAux (full : Snapshot) (keep : List URN) : Snapshot → Except PlanError (List Step)
  | [] => .ok []
  | s :: rest =>
    if s.urn ∈ keep then genDeletesAux full keep rest
    else if s.protect then .error (.protectedResource s.urn)
    else
      (genDeletesAux full keep rest).map
        (fun ds => ⟨.delete, s.urn, none, dependentsOf full s.urn⟩ :: ds)

/-- Modelled from the spec §4.3 step 3: Delete steps are ordered in reverse
dependency order (the old snapshot is topologically sorted, so its
reverse deletes dependents first). -/
def genDeletes (old : Snapshot) (keep : List URN) : Except PlanError (List Step) :=
  (genDeletesAux old keep old).map List.reverse

/-- Modelled from the spec §4.3: the step generator — steps for the desired
resources in registration order, then the Delete steps; planning fails
fast on a protect violation before any step is handed to the executor. -/
def plan (old : Snapshot) (regs : List Registration) : Except PlanError (List Step) :=
  (genDeletes old (regs.map (fun r => r.urn))).map
    (fun ds => regs.map (genStep old) ++ ds)

/-- Modelled from the spec §3/§4.5: the new snapshot records each step's
post-state in plan order; Delete steps record nothing. -/
def applySteps (steps : List Step) : Snapshot :=
  steps.filterMap (fun s => s.state)

/-- Modelled from the spec §3: the implicit root stack pseudo-resource,
registered ahead of the program's resources. -/
def rootReg : Registration :=
  ⟨⟨RootStackType, "protect-test"⟩, [], false, []⟩

/-- Modelled from the spec §4.5: a deployment runs the generator against
the old snapshot and the desired graph (root pseudo-resource first) and,
on success, produces the new snapshot. -/
def deployRes (old : Snapshot) (desired : List Registration) : Except PlanError Snapshot :=
  (plan old (rootReg :: desired)).map applySteps

/-- Modelled from the spec §4.5/§7: the durable snapshot after a deployment
attempt — a planning failure aborts before any mutation, leaving the
stored snapshot unchanged. -/
def deployed (old : Snapshot) (desired : List Registration) : Snapshot :=
  match deployRes old desired with
  | .ok s => s
  | .error _ => old

/-- Modelled from the spec §4.2: result of a `Save` call. -/
inductive SaveResult where
  | ok
  | writeConflict
deriving DecidableEq

/-- Modelled from the spec §4.2/§6: the snapshot persistence backend — an
append-style log of (stack reference, version counter, snapshot) entries,
newest first. -/
structure SnapshotStore where
  entries : List (String × Nat × Snapshot)
deriving DecidableEq

/-- Modelled from the spec §4.2: `Load` reads the latest durable snapshot
of a stack (with the version token the optimistic-concurrency check later
compares against), or `none` for NotFound. -/
def load (st : SnapshotStore) (ref : String) : Option (Nat × Snapshot) :=
  (st.entries.find? (fun e => e.1 = ref)).map (fun e => e.2)

/-- Version of the latest stored snapshot for a stack (0 when the stack
has none). -/
def currentVersion (st : SnapshotStore) (ref : String) : Nat :=
  ((load st ref).map (fun e => e.1)).getD 0

/-- Modelled from the spec §4.2: `Save` atomically installs a snapshot as
the new current state, rejecting the write with `writeConflict` — and
changing nothing — when the stored snapshot has changed since this
deployment loaded it (version token mismatch). -/
def save (st : SnapshotStore) (ref : String) (snap : Snapshot) (token : Nat) :
    SnapshotStore × SaveResult :=
  if currentVersion st ref = token then
    (⟨(ref, token + 1, snap) :: st.entries⟩, .ok)
  else (st, .writeConflict)

/-- Modelled from the spec §4.4: outcome of a single step under the
executor's failure policy. -/
inductive Outcome where
  | succeeded
  | failed
  | aborted
deriving DecidableEq

/-- Modelled from the spec §4.4/§9: the executor's bookkeeping — the
outcome of every resolved step, the checkpoint log (a checkpoint is
written for every executed step, success or failure), and the schedule:
one batch of started step URNs per scheduling round. -/
structure ExecState where
  resolved : List (URN × Outcome)
  checkpoints : List (URN × Outcome)
  schedule : List (List URN)
deriving DecidableEq

/-- Outcome recorded for a URN, if its step has been resolved. -/
def outcomeOf (es : ExecState) (u : URN) : Option Outcome :=
  (es.resolved.find? (fun e => e.1 = u)).map (fun e => e.2)

/-- Whether a URN's step has been resolved (executed or aborted). -/
def isResolved (es : ExecState) (u : URN) : Bool :=
  (outcomeOf es u).isSome

/-- The URNs that have a step in the plan. -/
def planUrns (steps : List Step) : List URN :=
  steps.map (fun s => s.urn)

/-- Predecessors of a step that actually have a step in the plan —
predecessors outside the plan are already satisfied. -/
def predsIn (steps : List Step) (s : Step) : List URN :=
  s.deps.filter (fun d => d ∈ planUrns steps)

/-- Modelled from the spec §3/§4.3.4: plans are handed to the executor in
an order consistent with their predecessor constraints (cyclic desired
graphs are rejected at planning time), i.e. every in-plan predecessor of
a step has its own step strictly earlier in the list. -/
def topoSorted (steps : List Step) : Bool :=
  (List.range steps.length).all fun i =>
    match steps[i]? with
    | some s => (predsIn steps s).all (fun d => d ∈ planUrns (steps.take i))
    | none => true

/-- A step is ready when every in-plan predecessor has succeeded. -/
def readyStep (steps : List Step) (es : ExecState) (s : Step) : Bool :=
  (predsIn steps s).all (fun d => outcomeOf es d = some Outcome.succeeded)

/-- A step is blocked when some in-plan predecessor failed or was
aborted; the executor aborts it without running its provider
operation. -/
def blockedStep (steps : List Step) (es : ExecState) (s : Step) : Bool :=
  (predsIn steps s).any fun d =>
    outcomeOf es d = some Outcome.failed || outcomeOf es d = some Outcome.aborted

/-- Modelled from the spec §4.4/§5/§9: one scheduling round of the
worker-pool executor — abort every unresolved step with a failed or
aborted predecessor, then start up to `par` ready steps (in plan order),
run their provider operations, and checkpoint each executed step. -/
def round (provider : URN → Bool) (par : Nat) (steps : List Step) (es : ExecState) : ExecState :=
  let unres := steps.filter fun s => !isResolved es s.urn
  let aborts := unres.filter (blockedStep steps es)
  let ready := (unres.filter (readyStep steps es)).take par
  let execd := ready.map fun s =>
    (s.urn, if provider s.urn then Outcome.succeeded else Outcome.failed)
  ⟨es.resolved ++ (aborts.map (fun s => (s.urn, Outcome.aborted)) ++ execd),
    es.checkpoints ++ execd,
    es.schedule ++ [ready.map fun s => s.urn]⟩

/-- Iterates scheduling rounds. -/
def execLoop (provider : URN → Bool) (par : Nat) (steps : List Step) :
    Nat → ExecState → ExecState
  | 0, es => es
  | fuel + 1, es => execLoop provider par steps fuel (round provider par steps es)

/-- The executor's starting state. -/
def initExecState : ExecState := ⟨[], [], []⟩

/-- Modelled from the spec §4.4: the step executor — `steps.length` rounds
of the scheduler (enough to resolve every step of an acyclic plan). -/
def execRun (provider : URN → Bool) (par : Nat) (steps : List Step) : ExecState :=
  execLoop provider par steps steps.length initExecState

/-- Modelled from the spec §4.4/§4.5: the structured overall outcome of a
run; `mixed` is the first-class "partial success" outcome (some resources
succeeded, at least one failed), distinct from total `failure`. -/
inductive RunReport where
  | success
  | mixed
  | failure
deriving DecidableEq

/-- Overall report of an executed plan. -/
def report (es : ExecState) : RunReport :=
  if es.resolved.any (fun e => e.2 = Outcome.failed) then
    if es.resolved.any (fun e => e.2 = Outcome.succeeded) then .mixed else .failure
  else .success

/-- Dependency reachability inside a plan: `Reaches steps a b` holds when
the step for `a` depends on `b`, directly or transitively through in-plan
predecessors. -/
inductive Reaches (steps : List Step) : URN → URN → Prop
  | base {s : Step} {d : URN} : s ∈ steps → d ∈ predsIn steps s → Reaches steps s.urn d
  | tail {s : Step} {d b : URN} :
      s ∈ steps → d ∈ predsIn steps s → Reaches steps d b → Reaches steps s.urn b

/-- Scheduling invariant of the executor: every succeeded URN appears in
some schedule batch, and every started step's in-plan predecessors appear
in strictly earlier batches than the step's own batch. -/
def SchedOK (steps : List Step) (es : ExecState) : Prop :=
  (∀ u, outcomeOf es u = some Outcome.succeeded →
    ∃ (j : Nat) (b : List URN), es.schedule[j]? = some b ∧ u ∈ b)
  ∧ ∀ (i : Nat) (b : List URN), es.schedule[i]? = some b → ∀ s, s ∈ steps → s.urn ∈ b →
      ∀ d, d ∈ predsIn steps s →
        ∃ (j : Nat) (b' : List URN), j < i ∧ es.schedule[j]? = some b' ∧ d ∈ b'

/-- Outcome invariant of the executor under a given provider: a failure is
only ever recorded for a resource whose provider operation fails, a
success only for one whose provider operation succeeds, an abort only for
a resource whose step reaches a failing resource through predecessor
edges, and every executed (succeeded or failed, i.e. non-aborted) step
has been checkpointed. -/
def ExecInv (provider : URN → Bool) (steps : List Step) (es : ExecState) : Prop :=
  (∀ u, outcomeOf es u = some Outcome.failed → provider u = false)
  ∧ (∀ u, outcomeOf es u = some Outcome.succeeded → provider u = true)
  ∧ (∀ u, outcomeOf es u = some Outcome.aborted →
      ∃ v, provider v = false ∧ Reaches steps u v)
  ∧ ∀ u o, outcomeOf es u = some o → o ≠ Outcome.aborted → (u, o) ∈ es.checkpoints

/-- The URN of the protected test resource of the lifecycle scenario. -/
def eternalUrn : URN := ⟨"pulumi-nodejs:dynamic:Resource", "eternal"⟩

/-- Registration of the `eternal` resource with a given Protect flag and
inputs. -/
def eternalReg (protect : Bool) (inputs : List (String × String)) : Registration :=
  ⟨eternalUrn, inputs, protect, []⟩

/-- Desired graph G1: `eternal` with `Protect=true`. -/
def g1 : List Registration := [eternalReg true [("state", "1")]]

/-- Desired graph G2: an input update on the protected `eternal`. -/
def g2 : List Registration := [eternalReg true [("state", "2")]]

/-- Desired graph G3: `eternal` removed while still protected. -/
def g3 : List Registration := []

/-- Desired graph G4: `Protect` turned off on `eternal`. -/
def g4 : List Registration := [eternalReg false [("state", "2")]]

/-- Desired graph G5: `eternal` removed after unprotecting it. -/
def g5 : List Registration := []

/-- Snapshot after deploying G1. -/
def snap1 : Snapshot := [mkState rootReg, ⟨eternalUrn, [("state", "1")], true, []⟩]

/-- Snapshot after deploying G2. -/
def snap2 : Snapshot := [mkState rootReg, ⟨eternalUrn, [("state", "2")], true, []⟩]

/-- Snapshot after deploying G4. -/
def snap4 : Snapshot := [mkState rootReg, ⟨eternalUrn, [("state", "2")], false, []⟩]

/-- Snapshot after deploying G5: the root pseudo-resource only. -/
def snap5 : Snapshot := [mkState rootReg]

end Engine

namespace Workspace

/-- Helper: the greedy loop of `getValidProjectName` only ever extends its
accumulator when the extension is still a valid project name, so the
result is valid unless it is the untouched empty accumulator. -/
theorem buildValidName_valid (l : List Char) :
    ∀ acc, (acc = [] ∨ IsValidProjectName acc = true) →
      buildValidName l acc = [] ∨ IsValidProjectName (buildValidName l acc) = true := by
  induction l with
  | nil =>
    intro acc h
    simpa [buildValidName] using h
  | cons c rest ih =>
    intro acc h
    by_cases hv : IsValidProjectName (acc ++ [c]) = true
    · simpa [buildValidName, hv] using ih _ (Or.inr hv)
    · simpa [buildValidName, hv] using ih _ h

/-- C8: `getValidProjectName` always returns a string satisfying
`IsValidProjectName`; a valid input is returned unchanged, and an invalid
input yields the greedy character-by-character subsequence that stays
valid, or the literal default `"project"` when that subsequence is
empty. -/
theorem c8_getValidProjectName (name : List Char) :
    IsValidProjectName (getValidProjectName name) = true
    ∧ (IsValidProjectName name = true → getValidProjectName name = name)
    ∧ (IsValidProjectName name = false →
        getValidProjectName name =
          if buildValidName name [] = [] then defaultProjectName
          else buildValidName name []) := by
  refine ⟨?_, ?_, ?_⟩
  · by_cases hv : IsValidProjectName name = true
    · simpa [getValidProjectName, hv] using hv
    · rcases buildValidName_valid name [] (Or.inl rfl) with h | h
      · simp [getValidProjectName, hv, h]
        decide
      · by_cases he : buildValidName name [] = []
        · rw [he] at h
          exact absurd h (by decide)
        · simpa [getValidProjectName, hv, he] using h
  · intro h
    simp [getValidProjectName, h]
  · intro h
    simp [getValidProjectName, h]

/-- Witness for C8 at the concrete inputs `"123abc"` (invalid, sanitised to
`"abc"`) and `"project"` (already valid, returned unchanged). -/
theorem c8_getValidProjectName_witness :
    IsValidProjectName "123abc".toList = false
    ∧ getValidProjectName "123abc".toList = "abc".toList
    ∧ getValidProjectName "project".toList = "project".toList := by
  refine ⟨by decide, ?_, (c8_getValidProjectName "project".toList).2.1 (by decide)⟩
  have h := (c8_getValidProjectName "123abc".toList).2.2 (by decide)
  rw [h]
  decide

/-- C9: with `overwrite=false`, `writeAllBytes` fails with an
already-exists error on an existing destination file and leaves the
existing contents unchanged; with `overwrite=true` it replaces the file's
contents with exactly the given bytes. -/
theorem c9_writeAllBytes (fs : FileSys) (filename : String) (bytes old : FileBytes) :
    (fs.readFile filename = some old →
      writeAllBytes fs filename bytes false = (fs, some WriteError.alreadyExists)
      ∧ (writeAllBytes fs filename bytes false).1.readFile filename = some old)
    ∧ writeAllBytes fs filename bytes true = (fs.setFile filename bytes, none)
    ∧ (writeAllBytes fs filename bytes true).1.readFile filename = some bytes := by
  refine ⟨?_, rfl, ?_⟩
  · intro h
    constructor
    · simp [writeAllBytes, h]
    · simp [writeAllBytes, h]
  · simp [writeAllBytes, FileSys.readFile, FileSys.setFile]

/-- Witness for C9 on a one-file file system: the protected write is
refused and keeps the old contents, the overwriting write installs the
new bytes. -/
theorem c9_writeAllBytes_witness :
    writeAllBytes ⟨[("Pulumi.yaml", [1, 2])]⟩ "Pulumi.yaml" [3] false
      = (⟨[("Pulumi.yaml", [1, 2])]⟩, some WriteError.alreadyExists)
    ∧ (writeAllBytes ⟨[("Pulumi.yaml", [1, 2])]⟩ "Pulumi.yaml" [3] true).1.readFile "Pulumi.yaml"
      = some [3] := by
  exact ⟨((c9_writeAllBytes ⟨[("Pulumi.yaml", [1, 2])]⟩ "Pulumi.yaml" [3] [1, 2]).1 (by decide)).1,
    (c9_writeAllBytes ⟨[("Pulumi.yaml", [1, 2])]⟩ "Pulumi.yaml" [3] []).2.2⟩

/-- C10: `isBinary` is true exactly when a zero byte occurs among the first
`min(length, 8000)` bytes — a zero at position 8000 or later is never
seen — and consequently `CopyTemplateFiles` applies the text
transformation to any file whose first 8000 bytes are zero-free. -/
theorem c10_isBinary (bytes : FileBytes) (projectName projectDescription : FileBytes) :
    (isBinary bytes = true ↔ ∃ i, i < min bytes.length 8000 ∧ bytes.getD i 1 = 0)
    ∧ ((∀ i, i < min bytes.length 8000 → bytes.getD i 1 ≠ 0) →
        copyTemplateFileContent bytes projectName projectDescription
          = transform bytes projectName projectDescription) := by
  have hiff : isBinary bytes = true ↔ ∃ i, i < min bytes.length 8000 ∧ bytes.getD i 1 = 0 := by
    constructor
    · intro h
      rw [isBinary, List.any_eq_true] at h
      obtain ⟨x, hx, hx0⟩ := h
      rw [List.mem_iff_getElem] at hx
      obtain ⟨i, hi, hxi⟩ := hx
      have hlen : i < min bytes.length 8000 := by
        simpa [List.length_take] using hi
      refine ⟨i, hlen, ?_⟩
      have hib : i < bytes.length := lt_of_lt_of_le hlen (min_le_left _ _)
      rw [List.getD_eq_getElem?_getD, List.getElem?_eq_getElem hib]
      have : bytes[i] = x := by
        rw [← @List.getElem_take _ bytes _ _ hi]
        exact hxi
      simp [this, decide_eq_true_eq.mp hx0]
    · rintro ⟨i, hi, h0⟩
      rw [isBinary, List.any_eq_true]
      have hib : i < bytes.length := lt_of_lt_of_le hi (min_le_left _ _)
      refine ⟨bytes[i], ?_, ?_⟩
      · rw [List.mem_iff_getElem]
        refine ⟨i, by simpa [List.length_take] using hi, ?_⟩
        exact @List.getElem_take _ bytes _ _ (by simpa [List.length_take] using hi)
      · rw [List.getD_eq_getElem?_getD, List.getElem?_eq_getElem hib] at h0
        simpa using h0
  refine ⟨hiff, fun hz => ?_⟩
  have hfalse : isBinary bytes = false := by
    rcases Bool.eq_false_or_eq_true (isBinary bytes) with h | h
    · obtain ⟨i, hi, h0⟩ := hiff.mp h
      exact absurd h0 (hz i hi)
    · exact h
  simp [copyTemplateFileContent, hfalse]

/-- Witness for C10: a zero byte in range makes `isBinary` true, and a
zero-free short file goes through the text transformation. -/
theorem c10_isBinary_witness :
    isBinary [1, 0, 2] = true
    ∧ copyTemplateFileContent [1, 2] [] [] = transform [1, 2] [] [] := by
  exact ⟨(c10_isBinary [1, 0, 2] [] []).1.mpr ⟨1, by decide, by decide⟩,
    (c10_isBinary [1, 2] [] []).2 (by decide)⟩

end Workspace

namespace Engine

/-- C1: the protected-resource lifecycle.  Deploying G1 from an empty
snapshot yields exactly the root pseudo-resource followed by `eternal`
with `Protect=true`; the G2 input update keeps 2 entries with
`Protect=true`; removing `eternal` while protected (G3) fails with a
ProtectedResourceError and leaves the snapshot unchanged; unprotecting it
(G4) is an Update step leaving 2 entries with `Protect=false`; removing
it afterwards (G5) is a Delete step leaving only the root entry. -/
theorem c1_protected_lifecycle :
    deployRes [] g1 = .ok snap1
    ∧ snap1.length = 2
    ∧ snap1.map (fun s => s.urn.typ) = [RootStackType, "pulumi-nodejs:dynamic:Resource"]
    ∧ snap1.map (fun s => s.urn.name) = ["protect-test", "eternal"]
    ∧ snap1.map (fun s => s.protect) = [false, true]
    ∧ deployRes snap1 g2 = .ok snap2
    ∧ snap2.length = 2
    ∧ snap2.map (fun s => s.protect) = [false, true]
    ∧ deployRes snap2 g3 = .error (.protectedResource eternalUrn)
    ∧ deployed snap2 g3 = snap2
    ∧ plan snap2 (rootReg :: g4)
        = .ok [⟨.same, rootReg.urn, some (mkState rootReg), []⟩,
            ⟨.update, eternalUrn, some ⟨eternalUrn, [("state", "2")], false, []⟩, []⟩]
    ∧ deployRes snap2 g4 = .ok snap4
    ∧ snap4.length = 2
    ∧ snap4.map (fun s => s.protect) = [false, false]
    ∧ plan snap4 (rootReg :: g5)
        = .ok [⟨.same, rootReg.urn, some (mkState rootReg), []⟩,
            ⟨.delete, eternalUrn, none, []⟩]
    ∧ deployRes snap4 g5 = .ok snap5
    ∧ snap5 = [mkState rootReg]
    ∧ snap5.length = 1 := by
  exact ⟨rfl, rfl, rfl, rfl, rfl, rfl, rfl, rfl, rfl, rfl, rfl, rfl, rfl, rfl, rfl, rfl,
    rfl, rfl⟩

/-- Helper for C2: scanning the old snapshot for deletions fails with a
ProtectedResourceError as soon as a protected resource has no desired
counterpart. -/
theorem genDeletesAux_protected {full : Snapshot} {keep : List URN} :
    ∀ old : Snapshot, ∀ r ∈ old, r.protect = true → r.urn ∉ keep →
      ∃ u, genDeletesAux full keep old = .error (.protectedResource u) := by
  intro old
  induction old with
  | nil =>
    intro r hr
    exact absurd hr (List.not_mem_nil r)
  | cons s rest ih =>
    intro r hr hp hk
    rcases List.mem_cons.mp hr with h | h
    · subst h
      by_cases hmem : r.urn ∈ keep
      · exact absurd hmem hk
      · exact ⟨r.urn, by simp [genDeletesAux, hmem, hp]⟩
    · by_cases hmem : s.urn ∈ keep
      · obtain ⟨u, hu⟩ := ih r h hp hk
        exact ⟨u, by simp [genDeletesAux, hmem, hu]⟩
      · by_cases hsp : s.protect = true
        · exact ⟨s.urn, by simp [genDeletesAux, hmem, hsp]⟩
        · obtain ⟨u, hu⟩ := ih r h hp hk
          exact ⟨u, by simp [genDeletesAux, hmem, hsp, hu, Except.map]⟩

/-- C2: a resource recorded with `Protect=true` in the old snapshot but
absent from the desired graph makes planning fail with a
ProtectedResourceError: no step list (in particular no Delete step) is
ever emitted, and the durable snapshot is left unchanged. -/
theorem c2_protect_blocks_delete (old : Snapshot) (desired : List Registration)
    (r : ResourceState) (hmem : r ∈ old) (hp : r.protect = true)
    (habs : r.urn ∉ (rootReg :: desired).map (fun d => d.urn)) :
    (∃ u, plan old (rootReg :: desired) = .error (.protectedResource u))
    ∧ (∀ steps, plan old (rootReg :: desired) ≠ .ok steps)
    ∧ deployed old desired = old := by
  obtain ⟨u, hu⟩ := @genDeletesAux_protected old
    ((rootReg :: desired).map (fun d => d.urn)) old r hmem hp habs
  simp only [List.map_cons] at hu
  refine ⟨⟨u, ?_⟩, ?_, ?_⟩
  · simp [plan, genDeletes, hu, Except.map]
  · intro steps
    simp [plan, genDeletes, hu, Except.map]
  · simp [deployed, deployRes, plan, genDeletes, hu, Except.map]

/-- Witness for C2: deploying G3 (which drops the protected `eternal`)
against the snapshot produced by G2. -/
theorem c2_protect_blocks_delete_witness :
    (∃ u, plan snap2 (rootReg :: g3) = .error (.protectedResource u))
    ∧ (∀ steps, plan snap2 (rootReg :: g3) ≠ .ok steps)
    ∧ deployed snap2 g3 = snap2 := by
  exact c2_protect_blocks_delete snap2 g3 ⟨eternalUrn, [("state", "2")], true, []⟩
    (by decide) rfl (by decide)

/-- C3: a successful `Save` followed by a `Load` of the same stack returns
exactly the saved snapshot (round-trip fidelity), at the next version. -/
theorem c3_save_load_roundtrip (st : SnapshotStore) (ref : String) (snap : Snapshot)
    (token : Nat) (st' : SnapshotStore)
    (hsave : save st ref snap token = (st', SaveResult.ok)) :
    load st' ref = some (token + 1, snap) := by
  unfold save at hsave
  by_cases h : currentVersion st ref = token
  · rw [if_pos h] at hsave
    obtain ⟨hst, -⟩ := Prod.mk.injEq .. ▸ hsave
    subst hst
    simp [load]
  · rw [if_neg h] at hsave
    exact absurd (congrArg Prod.snd hsave) (by simp)

/-- Witness for C3 on an empty store. -/
theorem c3_save_load_roundtrip_witness :
    load (save ⟨[]⟩ "dev" snap5 0).1 "dev" = some (1, snap5) := by
  exact c3_save_load_roundtrip ⟨[]⟩ "dev" snap5 0 _ rfl

/-- C6: `Save` returns `writeConflict` and changes nothing whenever the
stored snapshot's version differs from the one this deployment loaded;
consequently, after one of two deployments that loaded the same version
saves successfully, the other's save fails fast with `writeConflict`
instead of clobbering the first one's state. -/
theorem c6_write_conflict (st : SnapshotStore) (ref : String) (snap : Snapshot) (token : Nat) :
    (currentVersion st ref ≠ token → save st ref snap token = (st, SaveResult.writeConflict))
    ∧ (∀ snap2 st1, save st ref snap token = (st1, SaveResult.ok) →
        save st1 ref snap2 token = (st1, SaveResult.writeConflict)) := by
  constructor
  · intro h
    simp [save, h]
  · intro snap2 st1 hsave
    unfold save at hsave
    by_cases h : currentVersion st ref = token
    · rw [if_pos h] at hsave
      have hst : st1 = ⟨(ref, token + 1, snap) :: st.entries⟩ := (congrArg Prod.fst hsave).symm
      subst hst
      have hv : currentVersion (⟨(ref, token + 1, snap) :: st.entries⟩ : SnapshotStore) ref
          = token + 1 := by
        simp [currentVersion, load]
      simp [save, hv]
    · rw [if_neg h] at hsave
      exact absurd (congrArg Prod.snd hsave) (by simp)

/-- Witness for C6: a stale token is rejected on a concrete store, and a
second save with the token both deployments loaded is rejected after the
first save lands. -/
theorem c6_write_conflict_witness :
    save ⟨[("dev", 5, [])]⟩ "dev" snap5 3 = (⟨[("dev", 5, [])]⟩, SaveResult.writeConflict)
    ∧ save (save ⟨[("dev", 5, [])]⟩ "dev" snap5 5).1 "dev" snap2 5
      = ((save ⟨[("dev", 5, [])]⟩ "dev" snap5 5).1, SaveResult.writeConflict) := by
  exact ⟨(c6_write_conflict ⟨[("dev", 5, [])]⟩ "dev" snap5 3).1 (by decide),
    (c6_write_conflict ⟨[("dev", 5, [])]⟩ "dev" snap5 5).2 snap2 _ rfl⟩

end Engine

namespace Engine

/-- Helper: whatever the old snapshot holds, the step the generator emits
for a registration records exactly that registration's materialised
state. -/
theorem genStep_state (old : Snapshot) (r : Registration) :
    (genStep old r).state = some (mkState r) := by
  unfold genStep
  cases h : lookupOld old r.urn with
  | none => rfl
  | some os =>
    by_cases he : os = mkState r
    · simp [he]
    · simp [he]

/-- Helper: Delete steps record no post-state. -/
theorem genDeletesAux_state_none {full : Snapshot} {keep : List URN} :
    ∀ old ds, genDeletesAux full keep old = .ok ds → ∀ s ∈ ds, s.state = none := by
  intro old
  induction old with
  | nil =>
    intro ds h
    simp [genDeletesAux] at h
    subst h
    intro s hs
    exact absurd hs (List.not_mem_nil s)
  | cons a rest ih =>
    intro ds h s hs
    by_cases hmem : a.urn ∈ keep
    · rw [genDeletesAux, if_pos hmem] at h
      exact ih ds h s hs
    · by_cases hp : a.protect = true
      · rw [genDeletesAux, if_neg hmem, if_pos hp] at h
        cases h
      · rw [genDeletesAux, if_neg hmem, if_neg hp] at h
        cases hrec : genDeletesAux full keep rest with
        | error e =>
          rw [hrec] at h
          cases h
        | ok ds' =>
          rw [hrec] at h
          simp only [Except.map] at h
          cases h
          rcases List.mem_cons.mp hs with h' | h'
          · subst h'
            rfl
          · exact ih ds' hrec s h'

/-- Helper: the post-states of the generated resource steps are the
materialised registrations, in registration order. -/
theorem filterMap_genStep (old : Snapshot) (regs : List Registration) :
    (regs.map (genStep old)).filterMap (fun s => s.state) = regs.map mkState := by
  induction regs with
  | nil => rfl
  | cons a t iht =>
    simp only [List.map_cons, List.filterMap_cons, genStep_state]
    rw [iht]

/-- Helper: the snapshot a successful plan produces is exactly the
materialised desired registrations, in registration order. -/
theorem applySteps_plan (old : Snapshot) (regs : List Registration) (steps : List Step)
    (h : plan old regs = .ok steps) :
    applySteps steps = regs.map mkState := by
  unfold plan genDeletes at h
  cases hrec : genDeletesAux old (regs.map (fun r => r.urn)) old with
  | error e =>
    rw [hrec] at h
    cases h
  | ok ds =>
    rw [hrec] at h
    simp only [Except.map] at h
    cases h
    have hds : ∀ s ∈ ds.reverse, s.state = none := by
      intro s hs
      exact genDeletesAux_state_none old ds hrec s (List.mem_reverse.mp hs)
    unfold applySteps
    rw [List.filterMap_append]
    have h1 := filterMap_genStep old regs
    have h2 : ds.reverse.filterMap (fun s => s.state) = [] := by
      rw [List.filterMap_eq_nil_iff]
      intro s hs
      simp [hds s hs]
    rw [h1, h2, List.append_nil]

/-- Helper: in a duplicate-free materialised snapshot, looking a
registration's URN up finds exactly its own state. -/
theorem lookupOld_map_mkState (regs : List Registration) (r : Registration)
    (hnd : (regs.map (fun x => x.urn)).Nodup) (hr : r ∈ regs) :
    lookupOld (regs.map mkState) r.urn = some (mkState r) := by
  induction regs with
  | nil => cases hr
  | cons a t ih =>
    rcases List.mem_cons.mp hr with h | h
    · subst h
      unfold lookupOld
      rw [List.map_cons, List.find?_cons_of_pos _ (by simp [mkState])]
    · simp only [List.map_cons, List.nodup_cons] at hnd
      have hne : ¬((mkState a).urn = r.urn) := by
        intro he
        apply hnd.1
        rw [show a.urn = r.urn from he]
        exact List.mem_map_of_mem _ h
      unfold lookupOld
      rw [List.map_cons, List.find?_cons_of_neg _ (by simpa using hne)]
      exact ih hnd.2 h

/-- Helper: against its own materialised snapshot, every registration
generates a Same step carrying its state forward unchanged. -/
theorem genStep_same (regs : List Registration) (r : Registration)
    (hnd : (regs.map (fun x => x.urn)).Nodup) (hr : r ∈ regs) :
    genStep (regs.map mkState) r = ⟨.same, r.urn, some (mkState r), r.dependencies⟩ := by
  unfold genStep
  rw [lookupOld_map_mkState regs r hnd hr]
  simp

/-- Helper: when every old resource still has a desired counterpart, no
Delete step is generated and planning the deletions succeeds trivially. -/
theorem genDeletesAux_all_kept {full : Snapshot} {keep : List URN} :
    ∀ old, (∀ s ∈ old, s.urn ∈ keep) → genDeletesAux full keep old = .ok [] := by
  intro old
  induction old with
  | nil =>
    intro _
    rfl
  | cons a t ih =>
    intro h
    rw [genDeletesAux, if_pos (h a (List.mem_cons_self a t))]
    exact ih (fun s hs => h s (List.mem_cons_of_mem a hs))

/-- C4: deployment idempotence — a second deployment of an unchanged
desired graph against the snapshot the first one produced plans only Same
steps and reproduces that snapshot unchanged. -/
theorem c4_idempotent (old : Snapshot) (desired : List Registration) (s1 : Snapshot)
    (hnd : ((rootReg :: desired).map (fun r => r.urn)).Nodup)
    (h1 : deployRes old desired = .ok s1) :
    (∃ steps, plan s1 (rootReg :: desired) = .ok steps
      ∧ steps ≠ [] ∧ ∀ s ∈ steps, s.kind = StepKind.same)
    ∧ deployRes s1 desired = .ok s1 := by
  have hs1 : s1 = (rootReg :: desired).map mkState := by
    unfold deployRes at h1
    cases hp : plan old (rootReg :: desired) with
    | error e =>
      rw [hp] at h1
      cases h1
    | ok steps0 =>
      rw [hp] at h1
      simp only [Except.map] at h1
      cases h1
      exact applySteps_plan old (rootReg :: desired) steps0 hp
  subst hs1
  have hkeep : ∀ s ∈ (rootReg :: desired).map mkState,
      s.urn ∈ (rootReg :: desired).map (fun r => r.urn) := by
    intro s hs
    obtain ⟨r, hr, hrs⟩ := List.mem_map.mp hs
    subst hrs
    exact List.mem_map_of_mem _ hr
  have hdel : genDeletes ((rootReg :: desired).map mkState)
      ((rootReg :: desired).map (fun r => r.urn)) = .ok [] := by
    unfold genDeletes
    rw [genDeletesAux_all_kept _ hkeep]
    rfl
  have hplan : plan ((rootReg :: desired).map mkState) (rootReg :: desired)
      = .ok ((rootReg :: desired).map (genStep ((rootReg :: desired).map mkState))) := by
    unfold plan
    rw [hdel]
    simp only [Except.map, List.append_nil]
  refine ⟨⟨(rootReg :: desired).map (genStep ((rootReg :: desired).map mkState)), hplan,
    by simp, ?_⟩, ?_⟩
  · intro s hs
    obtain ⟨r, hr, hrs⟩ := List.mem_map.mp hs
    subst hrs
    rw [genStep_same (rootReg :: desired) r hnd hr]
  · unfold deployRes
    rw [hplan]
    simp only [Except.map]
    have : applySteps ((rootReg :: desired).map (genStep ((rootReg :: desired).map mkState)))
        = (rootReg :: desired).map mkState := by
      refine applySteps_plan ((rootReg :: desired).map mkState) (rootReg :: desired) _ ?_
      exact hplan
    rw [this]

/-- Witness for C4: redeploying G1 against the snapshot it produced. -/
theorem c4_idempotent_witness :
    (∃ steps, plan snap1 (rootReg :: g1) = .ok steps
      ∧ steps ≠ [] ∧ ∀ s ∈ steps, s.kind = StepKind.same)
    ∧ deployRes snap1 g1 = .ok snap1 := by
  exact c4_idempotent [] g1 snap1 (by decide) rfl

end Engine

namespace Engine

/-- Unfolding lemma: `outcomeOf` reads the resolved list. -/
theorem outcomeOf_def (es : ExecState) (u : URN) :
    outcomeOf es u = (es.resolved.find? (fun e => e.1 = u)).map (fun e => e.2) :=
  rfl

/-- Unfolding lemma: the resolved entries after one round. -/
theorem round_resolved (provider : URN → Bool) (par : Nat) (steps : List Step) (es : ExecState) :
    (round provider par steps es).resolved
      = es.resolved
        ++ (((steps.filter fun s => !isResolved es s.urn).filter (blockedStep steps es)).map
              (fun s => (s.urn, Outcome.aborted))
            ++ (((steps.filter fun s => !isResolved es s.urn).filter
                  (readyStep steps es)).take par).map
                (fun s => (s.urn, if provider s.urn then Outcome.succeeded else Outcome.failed))) :=
  rfl

/-- Unfolding lemma: the checkpoint log after one round. -/
theorem round_checkpoints (provider : URN → Bool) (par : Nat) (steps : List Step)
    (es : ExecState) :
    (round provider par steps es).checkpoints
      = es.checkpoints
        ++ (((steps.filter fun s => !isResolved es s.urn).filter
              (readyStep steps es)).take par).map
            (fun s => (s.urn, if provider s.urn then Outcome.succeeded else Outcome.failed)) :=
  rfl

/-- Unfolding lemma: the schedule after one round. -/
theorem round_schedule (provider : URN → Bool) (par : Nat) (steps : List Step) (es : ExecState) :
    (round provider par steps es).schedule
      = es.schedule
        ++ [(((steps.filter fun s => !isResolved es s.urn).filter
              (readyStep steps es)).take par).map
            (fun s => s.urn)] :=
  rfl

/-- Helper: reading a key out of a three-part resolved list, part by
part. -/
theorem find_pair_append3 (A B C : List (URN × Outcome)) (u : URN) (o : Outcome)
    (h : (((A ++ (B ++ C)).find? (fun e => e.1 = u)).map (fun e => e.2)) = some o) :
    ((A.find? (fun e => e.1 = u)).map (fun e => e.2) = some o)
    ∨ (A.find? (fun e => e.1 = u) = none
        ∧ (B.find? (fun e => e.1 = u)).map (fun e => e.2) = some o)
    ∨ (A.find? (fun e => e.1 = u) = none ∧ B.find? (fun e => e.1 = u) = none
        ∧ (C.find? (fun e => e.1 = u)).map (fun e => e.2) = some o) := by
  rw [List.find?_append, List.find?_append] at h
  cases hA : A.find? (fun e => e.1 = u) with
  | some e =>
    left
    rw [hA] at h
    exact h
  | none =>
    rw [hA] at h
    cases hB : B.find? (fun e => e.1 = u) with
    | some e =>
      right
      left
      rw [hB] at h
      exact ⟨rfl, h⟩
    | none =>
      rw [hB] at h
      exact Or.inr (Or.inr ⟨rfl, rfl, h⟩)

/-- Helper: a hit among the resolved entries contributed by a list of
steps comes from a step of that list carrying the looked-up URN. -/
theorem find_step_pairs (g : Step → Outcome) (u : URN) :
    ∀ (l : List Step) (e : URN × Outcome),
      (l.map fun s => (s.urn, g s)).find? (fun e => e.1 = u) = some e →
      ∃ s ∈ l, s.urn = u ∧ e = (s.urn, g s) := by
  intro l
  induction l with
  | nil =>
    intro e h
    cases h
  | cons a t ih =>
    intro e h
    rw [List.map_cons] at h
    by_cases ha : a.urn = u
    · rw [List.find?_cons_of_pos _ (by simpa using ha)] at h
      cases h
      exact ⟨a, List.mem_cons_self a t, ha, rfl⟩
    · rw [List.find?_cons_of_neg _ (by simpa using ha)] at h
      obtain ⟨s, hs, h1, h2⟩ := ih e h
      exact ⟨s, List.mem_cons_of_mem a hs, h1, h2⟩

/-- Case analysis of an outcome present after one round: it was either
already recorded, or the round aborted a blocked unresolved step with
that URN, or the round executed a ready unresolved step with that URN. -/
theorem outcomeOf_round_cases (provider : URN → Bool) (par : Nat) (steps : List Step)
    (es : ExecState) (u : URN) (o : Outcome)
    (h : outcomeOf (round provider par steps es) u = some o) :
    outcomeOf es u = some o
    ∨ (∃ s, s ∈ (steps.filter fun s => !isResolved es s.urn).filter (blockedStep steps es)
        ∧ s.urn = u ∧ o = Outcome.aborted)
    ∨ (∃ s, s ∈ ((steps.filter fun s => !isResolved es s.urn).filter
          (readyStep steps es)).take par
        ∧ s.urn = u
        ∧ o = (if provider s.urn then Outcome.succeeded else Outcome.failed)) := by
  rw [outcomeOf_def, round_resolved] at h
  rcases find_pair_append3 _ _ _ u o h with h1 | ⟨-, h2⟩ | ⟨-, -, h3⟩
  · left
    rw [outcomeOf_def]
    exact h1
  · right
    left
    obtain ⟨e, he, heo⟩ := Option.map_eq_some'.mp h2
    obtain ⟨s, hs, hsu, hse⟩ := find_step_pairs _ u _ e he
    refine ⟨s, hs, hsu, ?_⟩
    rw [hse] at heo
    exact heo.symm
  · right
    right
    obtain ⟨e, he, heo⟩ := Option.map_eq_some'.mp h3
    obtain ⟨s, hs, hsu, hse⟩ := find_step_pairs _ u _ e he
    refine ⟨s, hs, hsu, ?_⟩
    rw [hse] at heo
    exact heo.symm

/-- Helper: two plan steps with the same URN are the same step when the
plan's URNs are duplicate-free. -/
theorem step_urn_inj {steps : List Step} (hN : (steps.map (fun s => s.urn)).Nodup)
    {s t : Step} (hs : s ∈ steps) (ht : t ∈ steps) (h : s.urn = t.urn) : s = t :=
  List.inj_on_of_nodup_map hN hs ht h

/-- Helper: one scheduling round preserves the scheduling invariant. -/
theorem schedOK_round (provider : URN → Bool) (par : Nat) (steps : List Step)
    (hN : (steps.map (fun s => s.urn)).Nodup) (es : ExecState)
    (h : SchedOK steps es) : SchedOK steps (round provider par steps es) := by
  obtain ⟨hsucc, hord⟩ := h
  constructor
  · intro u hu
    rcases outcomeOf_round_cases provider par steps es u _ hu with h1 | ⟨s, -, -, habs⟩ | h3
    · obtain ⟨j, b, hj, hmem⟩ := hsucc u h1
      have hjlen : j < es.schedule.length := (List.getElem?_eq_some.mp hj).1
      refine ⟨j, b, ?_, hmem⟩
      rw [round_schedule, List.getElem?_append_left hjlen]
      exact hj
    · cases habs
    · obtain ⟨s, hs, hsu, -⟩ := h3
      refine ⟨es.schedule.length,
        (((steps.filter fun s => !isResolved es s.urn).filter
          (readyStep steps es)).take par).map (fun s => s.urn), ?_, ?_⟩
      · rw [round_schedule, List.getElem?_concat_length]
      · rw [← hsu]
        exact List.mem_map_of_mem _ hs
  · intro i b hib s hs hsb d hd
    rw [round_schedule] at hib
    by_cases hi : i < es.schedule.length
    · rw [List.getElem?_append_left hi] at hib
      obtain ⟨j, b', hj, hjb, hdb⟩ := hord i b hib s hs hsb d hd
      have hjlen : j < es.schedule.length := (List.getElem?_eq_some.mp hjb).1
      refine ⟨j, b', hj, ?_, hdb⟩
      rw [round_schedule, List.getElem?_append_left hjlen]
      exact hjb
    · have hieq : i = es.schedule.length := by
        have hilen := (List.getElem?_eq_some.mp hib).1
        simp only [List.length_append, List.length_singleton] at hilen
        omega
      subst hieq
      rw [List.getElem?_concat_length] at hib
      cases hib
      obtain ⟨t, htmem, hturn⟩ := List.mem_map.mp hsb
      have htsteps : t ∈ steps :=
        List.mem_of_mem_filter (List.mem_of_mem_filter (List.mem_of_mem_take htmem))
      have hts : t = s := step_urn_inj hN htsteps hs hturn
      subst hts
      have htready : readyStep steps es t = true :=
        List.of_mem_filter (List.mem_of_mem_take htmem)
      rw [readyStep, List.all_eq_true] at htready
      have hdsucc := htready d hd
      simp only [decide_eq_true_eq] at hdsucc
      obtain ⟨j, b', hjb, hdb⟩ := hsucc d hdsucc
      have hjlen : j < es.schedule.length := (List.getElem?_eq_some.mp hjb).1
      refine ⟨j, b', hjlen, ?_, hdb⟩
      rw [round_schedule, List.getElem?_append_left hjlen]
      exact hjb

/-- Helper: the executor's starting state satisfies the scheduling
invariant. -/
theorem schedOK_init (steps : List Step) : SchedOK steps initExecState := by
  constructor
  · intro u hu
    cases hu
  · intro i b hib
    simp [initExecState] at hib

/-- Helper: every iteration of the scheduler preserves the scheduling
invariant. -/
theorem schedOK_execLoop (provider : URN → Bool) (par : Nat) (steps : List Step)
    (hN : (steps.map (fun s => s.urn)).Nodup) :
    ∀ (fuel : Nat) (es : ExecState), SchedOK steps es →
      SchedOK steps (execLoop provider par steps fuel es) := by
  intro fuel
  induction fuel with
  | zero =>
    intro es h
    exact h
  | succ n ih =>
    intro es h
    exact ih (round provider par steps es) (schedOK_round provider par steps hN es h)

/-- C5: in every execution of a generated plan, at any parallelism degree,
a non-Delete step for a resource starts only in a batch strictly after
the batches in which the steps of its declared dependencies started. -/
theorem c5_step_ordering (old : Snapshot) (desired : List Registration)
    (steps : List Step) (provider : URN → Bool) (par : Nat)
    (hplan : plan old (rootReg :: desired) = .ok steps)
    (hN : (steps.map (fun s => s.urn)).Nodup)
    (i : Nat) (b : List URN) (s : Step) (d : URN)
    (hb : (execRun provider par steps).schedule[i]? = some b)
    (hs : s ∈ steps) (hkind : s.kind ≠ StepKind.delete) (hsb : s.urn ∈ b)
    (hd : d ∈ s.deps) (hdp : d ∈ planUrns steps) :
    ∃ j b', j < i ∧ (execRun provider par steps).schedule[j]? = some b' ∧ d ∈ b' := by
  have hOK : SchedOK steps (execRun provider par steps) :=
    schedOK_execLoop provider par steps hN steps.length initExecState (schedOK_init steps)
  have hdpred : d ∈ predsIn steps s := by
    rw [predsIn, List.mem_filter]
    exact ⟨hd, by simpa using hdp⟩
  exact hOK.2 i b hb s hs hsb d hdpred

end Engine

namespace Engine

/-- Witness for C5 on a generated two-resource plan where `b` depends on
`a` (run at parallelism 2): `b` starts in batch 1, and its dependency `a`
indeed started in a strictly earlier batch. -/
theorem c5_step_ordering_witness :
    ∃ (j : Nat) (b' : List URN), j < 1
      ∧ (execRun (fun _ => true) 2
          [⟨.create, ⟨RootStackType, "protect-test"⟩, some (mkState rootReg), []⟩,
            ⟨.create, ⟨"t", "a"⟩, some ⟨⟨"t", "a"⟩, [], false, []⟩, []⟩,
            ⟨.create, ⟨"t", "b"⟩, some ⟨⟨"t", "b"⟩, [], false, [⟨"t", "a"⟩]⟩,
              [⟨"t", "a"⟩]⟩]).schedule[j]? = some b'
      ∧ (⟨"t", "a"⟩ : URN) ∈ b' := by
  exact c5_step_ordering []
    [⟨⟨"t", "a"⟩, [], false, []⟩, ⟨⟨"t", "b"⟩, [], false, [⟨"t", "a"⟩]⟩]
    [⟨.create, ⟨RootStackType, "protect-test"⟩, some (mkState rootReg), []⟩,
      ⟨.create, ⟨"t", "a"⟩, some ⟨⟨"t", "a"⟩, [], false, []⟩, []⟩,
      ⟨.create, ⟨"t", "b"⟩, some ⟨⟨"t", "b"⟩, [], false, [⟨"t", "a"⟩]⟩, [⟨"t", "a"⟩]⟩]
    (fun _ => true) 2 rfl (by decide) 1 [⟨"t", "b"⟩]
    ⟨.create, ⟨"t", "b"⟩, some ⟨⟨"t", "b"⟩, [], false, [⟨"t", "a"⟩]⟩, [⟨"t", "a"⟩]⟩
    ⟨"t", "a"⟩ rfl (by decide) (by decide) (by decide) (by decide) (by decide)

end Engine

namespace Engine

/-- Helper: a topologically sorted plan places a step for every in-plan
predecessor of the step at position `i` strictly before position `i`. -/
theorem topo_preds (steps : List Step) (htopo : topoSorted steps = true) :
    ∀ (i : Nat) (s : Step), steps[i]? = some s → ∀ d ∈ predsIn steps s,
      ∃ (j : Nat) (t : Step), j < i ∧ steps[j]? = some t ∧ t.urn = d := by
  intro i s hi d hd
  rw [topoSorted, List.all_eq_true] at htopo
  have hib : i < steps.length := (List.getElem?_eq_some.mp hi).1
  have hall := htopo i (List.mem_range.mpr hib)
  rw [hi] at hall
  simp only [List.all_eq_true, decide_eq_true_eq] at hall
  have hd' : d ∈ planUrns (steps.take i) := hall d hd
  rw [planUrns] at hd'
  obtain ⟨t, htm, hturn⟩ := List.mem_map.mp hd'
  obtain ⟨j, hjlen, hjt⟩ := List.mem_iff_getElem.mp htm
  have hjlt : j < i := by
    have := List.length_take i steps ▸ hjlen
    omega
  have hjs : j < steps.length := by
    have := List.length_take i steps ▸ hjlen
    omega
  refine ⟨j, t, hjlt, ?_, hturn⟩
  rw [List.getElem?_eq_getElem hjs]
  exact congrArg some ((@List.getElem_take _ steps _ _ hjlen).symm.trans hjt)

/-- Helper: the first element of a list satisfying a predicate, when one
exists at all. -/
theorem exists_first_true {α : Type} (p : α → Bool) :
    ∀ l : List α, (∃ x ∈ l, p x = true) →
      ∃ (i : Nat) (x : α), l[i]? = some x ∧ p x = true
        ∧ ∀ (j : Nat) (y : α), j < i → l[j]? = some y → p y = false := by
  intro l
  induction l with
  | nil =>
    rintro ⟨x, hx, -⟩
    exact absurd hx (List.not_mem_nil x)
  | cons a t ih =>
    rintro ⟨x, hx, hp⟩
    by_cases hpa : p a = true
    · exact ⟨0, a, by simp, hpa, fun j y hj _ => absurd hj (Nat.not_lt_zero j)⟩
    · have hxt : ∃ x ∈ t, p x = true := by
        rcases List.mem_cons.mp hx with h | h
        · exact absurd (h ▸ hp) hpa
        · exact ⟨x, h, hp⟩
      obtain ⟨i, x', hi, hp', hmin⟩ := ih hxt
      refine ⟨i + 1, x', by simpa using hi, hp', ?_⟩
      intro j y hj hy
      cases j with
      | zero =>
        simp only [List.getElem?_cons_zero] at hy
        cases hy
        exact Bool.eq_false_iff.mpr hpa
      | succ j' =>
        exact hmin j' y (Nat.lt_of_succ_lt_succ hj) (by simpa using hy)

/-- Helper: a minimal satisfying element heads the filtered list. -/
theorem filter_head?_of_first {α : Type} (p : α → Bool) :
    ∀ (l : List α) (i : Nat) (x : α), l[i]? = some x → p x = true →
      (∀ (j : Nat) (y : α), j < i → l[j]? = some y → p y = false) →
      (l.filter p).head? = some x := by
  intro l
  induction l with
  | nil =>
    intro i x h
    rw [List.getElem?_nil] at h
    cases h
  | cons a t ih =>
    intro i x h hp hmin
    cases i with
    | zero =>
      simp only [List.getElem?_cons_zero] at h
      cases h
      simp [List.filter_cons, hp]
    | succ i' =>
      have hpa : p a = false := hmin 0 a (Nat.succ_pos i') (by simp)
      rw [List.filter_cons, if_neg (by simp [hpa])]
      exact ih i' x (by simpa using h) hp
        (fun j y hj hy => hmin (j + 1) y (Nat.succ_lt_succ hj) (by simpa using hy))

/-- Helper: filtering keeps a satisfying head at the head. -/
theorem filter_head?_cons {α : Type} (p : α → Bool) (l : List α) (x : α)
    (h : l.head? = some x) (hp : p x = true) : (l.filter p).head? = some x := by
  cases l with
  | nil => cases h
  | cons a t =>
    simp only [List.head?_cons] at h
    cases h
    simp [List.filter_cons, hp]

/-- Helper: the head of a list survives `take par` whenever at least one
element is taken. -/
theorem head?_mem_take {α : Type} (l : List α) (x : α) (par : Nat)
    (h : l.head? = some x) (hpar : 1 ≤ par) : x ∈ l.take par := by
  cases l with
  | nil => cases h
  | cons a t =>
    simp only [List.head?_cons] at h
    cases h
    cases par with
    | zero => exact absurd hpar (by omega)
    | succ n => simp [List.take_succ_cons]

/-- Helper: filtering with a stronger predicate yields at most as many
elements. -/
theorem length_filter_le_of_imp {α : Type} :
    ∀ (l : List α) (p q : α → Bool), (∀ x ∈ l, p x = true → q x = true) →
      (l.filter p).length ≤ (l.filter q).length := by
  intro l
  induction l with
  | nil =>
    intro p q _
    exact Nat.le_refl 0
  | cons a t ih =>
    intro p q himp
    have ht := ih p q (fun x hx hp => himp x (List.mem_cons_of_mem a hx) hp)
    rw [List.filter_cons, List.filter_cons]
    by_cases hpa : p a = true
    · rw [if_pos (by simp [hpa]), if_pos (by simp [himp a (List.mem_cons_self a t) hpa])]
      simpa using Nat.succ_le_succ ht
    · rw [if_neg (by simp [hpa])]
      by_cases hqa : q a = true
      · rw [if_pos (by simp [hqa])]
        exact le_trans ht (by simp)
      · rw [if_neg (by simp [hqa])]
        exact ht

/-- Helper: filtering with a strictly stronger predicate (witnessed by an
element satisfying only the weaker one) yields strictly fewer
elements. -/
theorem length_filter_lt_of_imp {α : Type} :
    ∀ (l : List α) (p q : α → Bool), (∀ x ∈ l, p x = true → q x = true) →
      (∃ x ∈ l, q x = true ∧ p x = false) →
      (l.filter p).length < (l.filter q).length := by
  intro l
  induction l with
  | nil =>
    rintro p q - ⟨x, hx, -⟩
    exact absurd hx (List.not_mem_nil x)
  | cons a t ih =>
    rintro p q himp ⟨x, hxm, hq, hp⟩
    have himpt : ∀ y ∈ t, p y = true → q y = true :=
      fun y hy hpy => himp y (List.mem_cons_of_mem a hy) hpy
    rw [List.filter_cons, List.filter_cons]
    rcases List.mem_cons.mp hxm with h | h
    · subst h
      rw [if_neg (by simp [hp]), if_pos (by simp [hq])]
      have hle := length_filter_le_of_imp t p q himpt
      simpa using Nat.lt_succ_of_le hle
    · have hlt := ih p q himpt ⟨x, h, hq, hp⟩
      by_cases hpa : p a = true
      · rw [if_pos (by simp [hpa]), if_pos (by simp [himp a (List.mem_cons_self a t) hpa])]
        simpa using Nat.succ_lt_succ hlt
      · rw [if_neg (by simp [hpa])]
        by_cases hqa : q a = true
        · rw [if_pos (by simp [hqa])]
          exact Nat.lt_succ_of_lt hlt
        · rw [if_neg (by simp [hqa])]
          exact hlt

/-- Helper: a resolved URN stays resolved after another round. -/
theorem isResolved_round_mono (provider : URN → Bool) (par : Nat) (steps : List Step)
    (es : ExecState) (u : URN) (h : isResolved es u = true) :
    isResolved (round provider par steps es) u = true := by
  rw [isResolved, outcomeOf_def] at h ⊢
  rw [round_resolved, List.find?_append]
  cases hA : es.resolved.find? (fun e => e.1 = u) with
  | some e => simp [Option.or]
  | none =>
    rw [hA] at h
    cases h
  
/-- Helper: a step aborted in a round is resolved afterwards. -/
theorem isResolved_round_abort (provider : URN → Bool) (par : Nat) (steps : List Step)
    (es : ExecState) (s : Step)
    (h : s ∈ (steps.filter fun t => !isResolved es t.urn).filter (blockedStep steps es)) :
    isResolved (round provider par steps es) s.urn = true := by
  rw [isResolved, outcomeOf_def, round_resolved]
  have hmem : (s.urn, Outcome.aborted)
      ∈ es.resolved
        ++ (((steps.filter fun t => !isResolved es t.urn).filter (blockedStep steps es)).map
              (fun t => (t.urn, Outcome.aborted))
            ++ (((steps.filter fun t => !isResolved es t.urn).filter
                  (readyStep steps es)).take par).map
                (fun t => (t.urn, if provider t.urn then Outcome.succeeded
                  else Outcome.failed))) :=
    List.mem_append_right _ (List.mem_append_left _ (List.mem_map_of_mem _ h))
  have hsome : ((es.resolved
        ++ (((steps.filter fun t => !isResolved es t.urn).filter (blockedStep steps es)).map
              (fun t => (t.urn, Outcome.aborted))
            ++ (((steps.filter fun t => !isResolved es t.urn).filter
                  (readyStep steps es)).take par).map
                (fun t => (t.urn, if provider t.urn then Outcome.succeeded
                  else Outcome.failed)))).find? (fun e => e.1 = s.urn)).isSome = true :=
    List.find?_isSome.mpr ⟨(s.urn, Outcome.aborted), hmem, by simp⟩
  obtain ⟨e, he⟩ := Option.isSome_iff_exists.mp hsome
  rw [he]
  rfl

/-- Helper: a step started in a round is resolved afterwards. -/
theorem isResolved_round_ready (provider : URN → Bool) (par : Nat) (steps : List Step)
    (es : ExecState) (s : Step)
    (h : s ∈ ((steps.filter fun t => !isResolved es t.urn).filter (readyStep steps es)).take par) :
    isResolved (round provider par steps es) s.urn = true := by
  rw [isResolved, outcomeOf_def, round_resolved]
  have hmem : (s.urn, if provider s.urn then Outcome.succeeded else Outcome.failed)
      ∈ es.resolved
        ++ (((steps.filter fun t => !isResolved es t.urn).filter (blockedStep steps es)).map
              (fun t => (t.urn, Outcome.aborted))
            ++ (((steps.filter fun t => !isResolved es t.urn).filter
                  (readyStep steps es)).take par).map
                (fun t => (t.urn, if provider t.urn then Outcome.succeeded
                  else Outcome.failed))) :=
    List.mem_append_right _ (List.mem_append_right _ (List.mem_map_of_mem _ h))
  have hsome : ((es.resolved
        ++ (((steps.filter fun t => !isResolved es t.urn).filter (blockedStep steps es)).map
              (fun t => (t.urn, Outcome.aborted))
            ++ (((steps.filter fun t => !isResolved es t.urn).filter
                  (readyStep steps es)).take par).map
                (fun t => (t.urn, if provider t.urn then Outcome.succeeded
                  else Outcome.failed)))).find? (fun e => e.1 = s.urn)).isSome = true :=
    List.find?_isSome.mpr
      ⟨(s.urn, if provider s.urn then Outcome.succeeded else Outcome.failed), hmem, by simp⟩
  obtain ⟨e, he⟩ := Option.isSome_iff_exists.mp hsome
  rw [he]
  rfl

/-- Helper: a recorded outcome is an entry of the resolved list. -/
theorem mem_resolved_of_outcomeOf (es : ExecState) (u : URN) (o : Outcome)
    (h : outcomeOf es u = some o) : (u, o) ∈ es.resolved := by
  rw [outcomeOf_def] at h
  obtain ⟨e, he, heo⟩ := Option.map_eq_some'.mp h
  have hmem := List.mem_of_find?_eq_some he
  have hpe := List.find?_some he
  simp only [decide_eq_true_eq] at hpe
  have : e = (u, o) := Prod.ext hpe heo
  exact this ▸ hmem

end Engine

namespace Engine

/-- Helper: while some step is unresolved, a round resolves at least one
previously unresolved step (the earliest one in plan order: its
predecessors are all resolved, so it is either aborted or started). -/
theorem round_progress (provider : URN → Bool) (par : Nat) (steps : List Step)
    (htopo : topoSorted steps = true) (hpar : 1 ≤ par) (es : ExecState)
    (hne : ∃ s ∈ steps, isResolved es s.urn = false) :
    ∃ s ∈ steps, isResolved es s.urn = false
      ∧ isResolved (round provider par steps es) s.urn = true := by
  obtain ⟨i, s0, hi, hp0, hmin⟩ := exists_first_true (fun s => !isResolved es s.urn) steps
    (by
      obtain ⟨s, hs, h⟩ := hne
      exact ⟨s, hs, by simp [h]⟩)
  have hs0mem : s0 ∈ steps := List.mem_iff_getElem?.mpr ⟨i, hi⟩
  have hs0unres : isResolved es s0.urn = false := by
    simpa using hp0
  have hpredres : ∀ d ∈ predsIn steps s0, ∃ o, outcomeOf es d = some o := by
    intro d hd
    obtain ⟨j, t, hj, hjt, hturn⟩ := topo_preds steps htopo i s0 hi d hd
    have htres : isResolved es t.urn = true := by
      have := hmin j t hj hjt
      simpa using this
    rw [hturn, isResolved] at htres
    exact Option.isSome_iff_exists.mp htres
  by_cases hblock : blockedStep steps es s0 = true
  · refine ⟨s0, hs0mem, hs0unres, ?_⟩
    apply isResolved_round_abort
    exact List.mem_filter.mpr ⟨List.mem_filter.mpr ⟨hs0mem, by simp [hs0unres]⟩, hblock⟩
  · have hready : readyStep steps es s0 = true := by
      rw [readyStep, List.all_eq_true]
      intro d hd
      obtain ⟨o, ho⟩ := hpredres d hd
      cases o with
      | succeeded => simp [ho]
      | failed =>
        exact absurd (by
          rw [blockedStep, List.any_eq_true]
          exact ⟨d, hd, by simp [ho]⟩) hblock
      | aborted =>
        exact absurd (by
          rw [blockedStep, List.any_eq_true]
          exact ⟨d, hd, by simp [ho]⟩) hblock
    have hunres_head : (steps.filter fun t => !isResolved es t.urn).head? = some s0 :=
      filter_head?_of_first _ steps i s0 hi hp0 hmin
    have hready_head :
        ((steps.filter fun t => !isResolved es t.urn).filter (readyStep steps es)).head?
          = some s0 :=
      filter_head?_cons _ _ s0 hunres_head hready
    refine ⟨s0, hs0mem, hs0unres, ?_⟩
    apply isResolved_round_ready
    exact head?_mem_take _ s0 par hready_head hpar

/-- Helper: while some step is unresolved, a round strictly shrinks the
set of unresolved steps. -/
theorem unres_round_lt (provider : URN → Bool) (par : Nat) (steps : List Step)
    (htopo : topoSorted steps = true) (hpar : 1 ≤ par) (es : ExecState)
    (hne : ∃ s ∈ steps, isResolved es s.urn = false) :
    (steps.filter fun s => !isResolved (round provider par steps es) s.urn).length
      < (steps.filter fun s => !isResolved es s.urn).length := by
  obtain ⟨s0, hs0, hun, hres⟩ := round_progress provider par steps htopo hpar es hne
  apply length_filter_lt_of_imp
  · intro x hx hpx
    cases hisx : isResolved es x.urn with
    | false => simp
    | true =>
      exfalso
      have := isResolved_round_mono provider par steps es x.urn hisx
      rw [this] at hpx
      cases hpx
  · exact ⟨s0, hs0, by simp [hun], by simp [hres]⟩

/-- Helper: `steps.length` rounds fully resolve an acyclic plan when each
round may start at least one step. -/
theorem execLoop_resolves (provider : URN → Bool) (par : Nat) (steps : List Step)
    (htopo : topoSorted steps = true) (hpar : 1 ≤ par) :
    ∀ (fuel : Nat) (es : ExecState),
      (steps.filter fun s => !isResolved es s.urn).length ≤ fuel →
      ∀ s ∈ steps, isResolved (execLoop provider par steps fuel es) s.urn = true := by
  intro fuel
  induction fuel with
  | zero =>
    intro es h s hs
    have hempty : steps.filter (fun s => !isResolved es s.urn) = [] :=
      List.length_eq_zero.mp (Nat.le_zero.mp h)
    have hres : ¬(!isResolved es s.urn) = true := by
      intro htrue
      have hmem : s ∈ steps.filter (fun t => !isResolved es t.urn) :=
        List.mem_filter.mpr ⟨hs, htrue⟩
      rw [hempty] at hmem
      exact absurd hmem (List.not_mem_nil s)
    have hz : execLoop provider par steps 0 es = es := rfl
    rw [hz]
    simpa using hres
  | succ n ih =>
    intro es h s hs
    have hstep : execLoop provider par steps (n + 1) es
        = execLoop provider par steps n (round provider par steps es) := rfl
    rw [hstep]
    by_cases hne : ∃ t ∈ steps, isResolved es t.urn = false
    · have hlt := unres_round_lt provider par steps htopo hpar es hne
      exact ih (round provider par steps es) (by omega) s hs
    · push_neg at hne
      have hempty : steps.filter (fun t => !isResolved (round provider par steps es) t.urn)
          = [] := by
        rw [List.filter_eq_nil_iff]
        intro t ht
        have h1 : isResolved es t.urn = true := Bool.ne_false_iff.mp (hne t ht)
        have h2 := isResolved_round_mono provider par steps es t.urn h1
        simp [h2]
      exact ih (round provider par steps es) (by simp [hempty]) s hs

/-- Helper: one round preserves the outcome invariant. -/
theorem execInv_round (provider : URN → Bool) (par : Nat) (steps : List Step)
    (hN : (steps.map (fun s => s.urn)).Nodup) (es : ExecState)
    (h : ExecInv provider steps es) : ExecInv provider steps (round provider par steps es) := by
  obtain ⟨hf, hsucc, hab, hcp⟩ := h
  refine ⟨?_, ?_, ?_, ?_⟩
  · intro u hu
    rcases outcomeOf_round_cases provider par steps es u _ hu with
      h1 | ⟨s, hs, hsu', ho⟩ | ⟨s, hs, hsu', ho⟩
    · exact hf u h1
    · simp at ho
    · by_cases hp : provider s.urn = true
      · rw [if_pos hp] at ho
        simp at ho
      · rw [← hsu']
        exact Bool.eq_false_iff.mpr hp
  · intro u hu
    rcases outcomeOf_round_cases provider par steps es u _ hu with
      h1 | ⟨s, hs, hsu', ho⟩ | ⟨s, hs, hsu', ho⟩
    · exact hsucc u h1
    · simp at ho
    · by_cases hp : provider s.urn = true
      · rw [← hsu']
        exact hp
      · rw [if_neg hp] at ho
        simp at ho
  · intro u hu
    rcases outcomeOf_round_cases provider par steps es u _ hu with
      h1 | ⟨s, hs, hsu', ho⟩ | ⟨s, hs, hsu', ho⟩
    · exact hab u h1
    · have hsteps : s ∈ steps := List.mem_of_mem_filter (List.mem_of_mem_filter hs)
      have hbl : blockedStep steps es s = true := List.of_mem_filter hs
      rw [blockedStep, List.any_eq_true] at hbl
      obtain ⟨d, hd, hdo⟩ := hbl
      simp only [Bool.or_eq_true, decide_eq_true_eq] at hdo
      rcases hdo with hdo | hdo
      · exact ⟨d, hf d hdo, hsu' ▸ Reaches.base hsteps hd⟩
      · obtain ⟨v, hv, hr⟩ := hab d hdo
        exact ⟨v, hv, hsu' ▸ Reaches.tail hsteps hd hr⟩
    · by_cases hp : provider s.urn = true
      · rw [if_pos hp] at ho
        simp at ho
      · rw [if_neg hp] at ho
        simp at ho
  · intro u o hu hne
    rcases outcomeOf_round_cases provider par steps es u o hu with
      h1 | ⟨s, hs, hsu', ho⟩ | ⟨s, hs, hsu', ho⟩
    · rw [round_checkpoints]
      exact List.mem_append_left _ (hcp u o h1 hne)
    · exact absurd ho hne
    · rw [round_checkpoints]
      apply List.mem_append_right
      rw [← hsu', ho]
      exact List.mem_map_of_mem _ hs

/-- Helper: the executor's starting state satisfies the outcome
invariant. -/
theorem execInv_init (provider : URN → Bool) (steps : List Step) :
    ExecInv provider steps initExecState := by
  refine ⟨fun _ hu => ?_, fun _ hu => ?_, fun _ hu => ?_, fun _ _ hu _ => ?_⟩ <;> cases hu

/-- Helper: every iteration of the scheduler preserves the outcome
invariant. -/
theorem execInv_execLoop (provider : URN → Bool) (par : Nat) (steps : List Step)
    (hN : (steps.map (fun s => s.urn)).Nodup) :
    ∀ (fuel : Nat) (es : ExecState), ExecInv provider steps es →
      ExecInv provider steps (execLoop provider par steps fuel es) := by
  intro fuel
  induction fuel with
  | zero =>
    intro es h
    exact h
  | succ n ih =>
    intro es h
    exact ih (round provider par steps es) (execInv_round provider par steps hN es h)

/-- Helper: in a duplicate-free, topologically sorted plan, a dependency
path always descends to strictly smaller plan positions. -/
theorem reaches_index (steps : List Step) (hN : (steps.map (fun s => s.urn)).Nodup)
    (htopo : topoSorted steps = true) :
    ∀ a b, Reaches steps a b →
      ∀ (ia : Nat) (sa : Step), steps[ia]? = some sa → sa.urn = a →
        ∃ (ib : Nat) (sb : Step), steps[ib]? = some sb ∧ sb.urn = b ∧ ib < ia := by
  intro a b h
  induction h with
  | base hs hd =>
    intro ia sa hia hsa
    have hsas : sa ∈ steps := List.mem_iff_getElem?.mpr ⟨ia, hia⟩
    have heq : sa = _ := step_urn_inj hN hsas hs hsa
    subst heq
    obtain ⟨j, t, hj, hjt, hturn⟩ := topo_preds steps htopo ia sa hia _ hd
    exact ⟨j, t, hjt, hturn, hj⟩
  | tail hs hd _ ih =>
    intro ia sa hia hsa
    have hsas : sa ∈ steps := List.mem_iff_getElem?.mpr ⟨ia, hia⟩
    have heq : sa = _ := step_urn_inj hN hsas hs hsa
    subst heq
    obtain ⟨j, t, hj, hjt, hturn⟩ := topo_preds steps htopo ia sa hia _ hd
    obtain ⟨ib, sb, hib, hsb, hlt⟩ := ih j t hjt hturn
    exact ⟨ib, sb, hib, hsb, Nat.lt_trans hlt hj⟩

/-- Helper: no resource reaches itself through the predecessor edges of a
duplicate-free, topologically sorted plan. -/
theorem reaches_irrefl (steps : List Step) (hN : (steps.map (fun s => s.urn)).Nodup)
    (htopo : topoSorted steps = true) (u : URN) : ¬Reaches steps u u := by
  intro h
  obtain ⟨s, hs, hsu⟩ : ∃ s ∈ steps, s.urn = u := by
    cases h with
    | base hs _ => exact ⟨_, hs, rfl⟩
    | tail hs _ _ => exact ⟨_, hs, rfl⟩
  obtain ⟨ia, hia⟩ := List.mem_iff_getElem?.mp hs
  obtain ⟨ib, sb, hib, hsb, hlt⟩ := reaches_index steps hN htopo u u h ia s hia hsu
  have hsbs : sb = s :=
    step_urn_inj hN (List.mem_iff_getElem?.mpr ⟨ib, hib⟩) hs (hsb.trans hsu.symm)
  have hNd : steps.Nodup := List.Nodup.of_map _ hN
  have : ib = ia :=
    List.getElem?_inj (List.getElem?_eq_some.mp hib).1 hNd (by rw [hib, hia, hsbs])
  omega

/-- C7: with the provider failing exactly for resource `bUrn`, executing a
duplicate-free, topologically sorted plan with at least one worker (a)
completes and checkpoints the step of every resource with no dependency
path to `bUrn`, (b) only aborts steps that depend, directly or
transitively, on `bUrn`, and (c) reports the run as the first-class mixed
(partial success) outcome — not total failure — whenever the plan
contains `bUrn`'s step and at least one independent resource. -/
theorem c7_failure_containment (steps : List Step) (provider : URN → Bool) (par : Nat)
    (bUrn : URN)
    (hN : (steps.map (fun s => s.urn)).Nodup)
    (htopo : topoSorted steps = true)
    (hpar : 1 ≤ par)
    (hprov : ∀ u, provider u = false ↔ u = bUrn) :
    (∀ s ∈ steps, s.urn ≠ bUrn → ¬Reaches steps s.urn bUrn →
      outcomeOf (execRun provider par steps) s.urn = some Outcome.succeeded
      ∧ (s.urn, Outcome.succeeded) ∈ (execRun provider par steps).checkpoints)
    ∧ (∀ s ∈ steps, outcomeOf (execRun provider par steps) s.urn = some Outcome.aborted →
        Reaches steps s.urn bUrn)
    ∧ ((∃ sb ∈ steps, sb.urn = bUrn) →
        (∃ c ∈ steps, c.urn ≠ bUrn ∧ ¬Reaches steps c.urn bUrn) →
        report (execRun provider par steps) = RunReport.mixed) := by
  obtain ⟨hf, hsucc, hab, hcp⟩ :=
    execInv_execLoop provider par steps hN steps.length initExecState
      (execInv_init provider steps)
  have hAll : ∀ s ∈ steps, isResolved (execRun provider par steps) s.urn = true :=
    execLoop_resolves provider par steps htopo hpar steps.length initExecState
      (List.length_filter_le _ _)
  have hsucc_of : ∀ s ∈ steps, s.urn ≠ bUrn → ¬Reaches steps s.urn bUrn →
      outcomeOf (execRun provider par steps) s.urn = some Outcome.succeeded := by
    intro s hs hne hnr
    obtain ⟨o, ho⟩ := Option.isSome_iff_exists.mp (hAll s hs)
    cases o with
    | succeeded => exact ho
    | failed => exact absurd ((hprov s.urn).mp (hf _ ho)) hne
    | aborted =>
      exfalso
      obtain ⟨v, hv, hr⟩ := hab _ ho
      rw [(hprov v).mp hv] at hr
      exact hnr hr
  refine ⟨?_, ?_, ?_⟩
  · intro s hs hne hnr
    have ho := hsucc_of s hs hne hnr
    exact ⟨ho, hcp _ _ ho (by simp)⟩
  · intro s hs ho
    obtain ⟨v, hv, hr⟩ := hab _ ho
    rw [(hprov v).mp hv] at hr
    exact hr
  · rintro ⟨sb, hsbm, hsburn⟩ ⟨c, hcm, hcne, hcnr⟩
    obtain ⟨ob, hob⟩ := Option.isSome_iff_exists.mp (hAll sb hsbm)
    have hbfail : ob = Outcome.failed := by
      cases ob with
      | failed => rfl
      | succeeded =>
        exfalso
        have hpt := hsucc _ hob
        rw [hsburn] at hpt
        have hbf : provider bUrn = false := (hprov bUrn).mpr rfl
        rw [hpt] at hbf
        cases hbf
      | aborted =>
        exfalso
        obtain ⟨v, hv, hr⟩ := hab _ hob
        rw [(hprov v).mp hv, hsburn] at hr
        exact reaches_irrefl steps hN htopo bUrn hr
    subst hbfail
    have hcs := hsucc_of c hcm hcne hcnr
    have hmemf : (sb.urn, Outcome.failed) ∈ (execRun provider par steps).resolved :=
      mem_resolved_of_outcomeOf _ _ _ hob
    have hmems : (c.urn, Outcome.succeeded) ∈ (execRun provider par steps).resolved :=
      mem_resolved_of_outcomeOf _ _ _ hcs
    have h1 : (execRun provider par steps).resolved.any (fun e => e.2 = Outcome.failed)
        = true := List.any_eq_true.mpr ⟨(sb.urn, Outcome.failed), hmemf, by simp⟩
    have h2 : (execRun provider par steps).resolved.any (fun e => e.2 = Outcome.succeeded)
        = true := List.any_eq_true.mpr ⟨(c.urn, Outcome.succeeded), hmems, by simp⟩
    simp [report, h1, h2]

end Engine

namespace Engine

/-- Helper: a plan in which no step has an in-plan predecessor admits no
dependency path at all. -/
theorem not_reaches_of_no_preds (steps : List Step)
    (h : ∀ s ∈ steps, predsIn steps s = []) (a b : URN) : ¬Reaches steps a b := by
  intro hr
  induction hr with
  | base hs hd =>
    rw [h _ hs] at hd
    exact absurd hd (List.not_mem_nil _)
  | tail hs hd _ _ =>
    rw [h _ hs] at hd
    exact absurd hd (List.not_mem_nil _)

/-- Witness for C7 on a two-step plan where the provider fails exactly for
`b`: the independent resource `c` still succeeds, and the run reports the
mixed (partial success) outcome. -/
theorem c7_failure_containment_witness :
    outcomeOf (execRun (fun u => !decide (u = ⟨"t", "b"⟩)) 1
        [⟨.create, ⟨"t", "b"⟩, none, []⟩, ⟨.create, ⟨"t", "c"⟩, none, []⟩])
      ⟨"t", "c"⟩ = some Outcome.succeeded
    ∧ report (execRun (fun u => !decide (u = ⟨"t", "b"⟩)) 1
        [⟨.create, ⟨"t", "b"⟩, none, []⟩, ⟨.create, ⟨"t", "c"⟩, none, []⟩])
      = RunReport.mixed := by
  have hnr : ¬Reaches [⟨.create, ⟨"t", "b"⟩, none, []⟩, ⟨.create, ⟨"t", "c"⟩, none, []⟩]
      (⟨"t", "c"⟩ : URN) (⟨"t", "b"⟩ : URN) :=
    not_reaches_of_no_preds _ (by decide) _ _
  have h := c7_failure_containment
    [⟨.create, ⟨"t", "b"⟩, none, []⟩, ⟨.create, ⟨"t", "c"⟩, none, []⟩]
    (fun u => !decide (u = ⟨"t", "b"⟩)) 1 ⟨"t", "b"⟩
    (by decide) (by decide) (by decide)
    (by
      intro u
      by_cases hu : u = (⟨"t", "b"⟩ : URN) <;> simp [hu])
  refine ⟨?_, ?_⟩
  · exact (h.1 ⟨.create, ⟨"t", "c"⟩, none, []⟩ (by decide) (by decide) hnr).1
  · exact h.2.2 ⟨⟨.create, ⟨"t", "b"⟩, none, []⟩, by decide, rfl⟩
      ⟨⟨.create, ⟨"t", "c"⟩, none, []⟩, by decide, by decide, hnr⟩

end Engine
